import Mathlib

/-!
Verification development for the Symbiotic Relay TypeScript client
(`symbioticfi/relay-client-ts`).

The repository is a thin generated-protobuf client wrapper plus usage
examples.  The client-side code that computes anything is embedded here
directly from the source (the suggested-epoch accumulation loop in `main`,
the streaming pass-through generators, and the two `signMessage` request
builders).  The server-side aggregation engine that the specification
describes (EpochClock, SignatureRequestStore, AggregationEngine,
EventNotifier) is not part of this repository; those components are
modelled from the specification text, as indicated on each definition.

JavaScript `bigint` epoch values are modelled as `Nat`; byte strings as
`List Nat`; the lossy `Number(...)` conversion applied by `main` is
modelled exactly on unsigned 64-bit inputs by `jsNumber` below.
-/

/-- From `src/examples/basic-usage.ts` and `src/unnamed/part_000`
(`SignMessageRequestSchema` payload built by `RelayClient.signMessage`):
a sign-message request carries a key tag, the message bytes and an
optional required epoch. -/
structure SignMessageRequest where
  keyTag : Nat
  message : List Nat
  requiredEpoch : Option Nat
deriving DecidableEq, Repr

/-- Request builder of `RelayClient.signMessage` in `src/unnamed/part_000`
(lines 65-72): builds the request from `keyTag`, `message`,
`requiredEpoch` verbatim. -/
def signMessageRequestPart000 (keyTag : Nat) (message : List Nat)
    (requiredEpoch : Option Nat) : SignMessageRequest :=
  ⟨keyTag, message, requiredEpoch⟩

/-- Request builder of `RelayClient.signMessage` in
`src/examples/basic-usage.ts` (lines 82-89): builds the request from
`keyTag`, `message`, `requiredEpoch` verbatim. -/
def signMessageRequestBasicUsage (keyTag : Nat) (message : List Nat)
    (requiredEpoch : Option Nat) : SignMessageRequest :=
  ⟨keyTag, message, requiredEpoch⟩

/-- The body of each streaming generator in the client
(`signMessageAndWait` in `src/unnamed/part_000` lines 101-112, and
`listenSignatures` / `listenProofs` / `listenValidatorSet` in
`src/examples/basic-usage.ts` lines 166-194):
`for await (const response of stream) yield response`, modelled as a
left fold that appends each server-pushed response to the yielded list. -/
def streamForYield {α : Type} (responses : List α) : List α :=
  responses.foldl (fun acc r => acc ++ [r]) []

/-- Stream loop of `RelayClient.signMessageAndWait` (`src/unnamed/part_000`). -/
def signMessageAndWaitYield {α : Type} (responses : List α) : List α :=
  streamForYield responses

/-- Stream loop of `RelayClient.listenSignatures` (`src/examples/basic-usage.ts`). -/
def listenSignaturesYield {α : Type} (responses : List α) : List α :=
  streamForYield responses

/-- Stream loop of `RelayClient.listenProofs` (`src/examples/basic-usage.ts`). -/
def listenProofsYield {α : Type} (responses : List α) : List α :=
  streamForYield responses

/-- Stream loop of `RelayClient.listenValidatorSet` (`src/examples/basic-usage.ts`). -/
def listenValidatorSetYield {α : Type} (responses : List α) : List α :=
  streamForYield responses

theorem streamForYield_eq {α : Type} (responses : List α) :
    streamForYield responses = responses := by
  have h : ∀ (l acc : List α), l.foldl (fun a r => a ++ [r]) acc = acc ++ l := by
    intro l
    induction l with
    | nil => intro acc; simp
    | cons x xs ih => intro acc; simp [List.foldl, ih]
  simpa [streamForYield] using h responses []

/-- One iteration of the suggested-epoch accumulation loop in `main`
(`src/examples/basic-usage.ts` lines 219-221, `src/unnamed/part_000`
lines 136-138):
`if (suggestedEpoch === 0 || last < suggestedEpoch) suggestedEpoch = last`. -/
def suggestedEpochStep (acc last : Nat) : Nat :=
  if acc = 0 ∨ last < acc then last else acc

/-- The suggested-epoch accumulation loop in `main`, folded over the
per-chain `lastCommittedEpoch` values in iteration order, starting from
`let suggestedEpoch = 0`. -/
def suggestedEpochLoop (epochs : List Nat) : Nat :=
  epochs.foldl suggestedEpochStep 0

/-- Exponent of the unit in the last place of the IEEE-754 double nearest
to an unsigned 64-bit integer: 0 below `2 ^ 53`, and `log2 n - 52` above
(for `n < 2 ^ 64` the exponent is at most 11, so scanning 11 candidates
suffices). -/
def ulpExp (n : Nat) : Nat :=
  ((List.range 11).filter (fun j => 2 ^ (53 + j) ≤ n)).length

/-- Conversion `Number(chainInfo.lastCommittedEpoch)` in `main`
(`src/examples/basic-usage.ts` lines 219-220, `src/unnamed/part_000`
lines 136-137): conversion of an unsigned 64-bit `bigint` to a JavaScript
number, i.e. rounding to the nearest IEEE-754 double, ties to even.
Modelled exactly on integers: round to the nearest multiple of the unit
in the last place. -/
def jsNumber (n : Nat) : Nat :=
  let u := 2 ^ ulpExp n
  let q := n / u
  let r := n % u
  if 2 * r < u then q * u
  else if u < 2 * r then (q + 1) * u
  else if q % 2 = 0 then q * u else (q + 1) * u

/-- The complete suggested-epoch computation in `main`: each chain's
`lastCommittedEpoch` passes through `Number(...)` before entering the
accumulation loop. -/
def mainSuggestedEpoch (epochs : List Nat) : Nat :=
  suggestedEpochLoop (epochs.map jsNumber)

theorem suggestedEpochStep_pos {a v : Nat} (ha : 0 < a) :
    suggestedEpochStep a v = min a v := by
  unfold suggestedEpochStep
  rcases Nat.lt_or_ge v a with h | h
  · simp [Nat.ne_of_gt ha, h, Nat.min_eq_right (Nat.le_of_lt h)]
  · have : ¬ v < a := Nat.not_lt.mpr h
    simp [Nat.ne_of_gt ha, this, Nat.min_eq_left h]

theorem suggestedEpochLoop_go (epochs : List Nat) :
    ∀ a : Nat, 0 < a → (∀ e ∈ epochs, 0 < e) →
    (epochs.foldl suggestedEpochStep a = a ∨
        epochs.foldl suggestedEpochStep a ∈ epochs) ∧
    epochs.foldl suggestedEpochStep a ≤ a ∧
    (∀ e ∈ epochs, epochs.foldl suggestedEpochStep a ≤ e) := by
  induction epochs with
  | nil => intro a ha _; exact ⟨Or.inl rfl, Nat.le_refl a, by simp⟩
  | cons v rest ih =>
    intro a ha hpos
    have hv : 0 < v := hpos v (List.mem_cons_self v rest)
    have hrest : ∀ e ∈ rest, 0 < e := fun e he => hpos e (List.mem_cons_of_mem v he)
    have hstep : suggestedEpochStep a v = min a v := suggestedEpochStep_pos ha
    have hmin : 0 < min a v := lt_min ha hv
    obtain ⟨hmem, hle, hall⟩ := ih (min a v) hmin hrest
    have hfold : (v :: rest).foldl suggestedEpochStep a
        = rest.foldl suggestedEpochStep (min a v) := by
      simp [List.foldl, hstep]
    refine ⟨?_, ?_, ?_⟩
    · rcases hmem with h | h
      · rcases Nat.le_total a v with hav | hva
        · left; rw [hfold, h, Nat.min_eq_left hav]
        · right; rw [hfold, h, Nat.min_eq_right hva]
          exact List.mem_cons_self v rest
      · right; rw [hfold]; exact List.mem_cons_of_mem v h
    · rw [hfold]; exact Nat.le_trans hle (Nat.min_le_left a v)
    · intro e he
      rcases List.mem_cons.mp he with rfl | he'
      · rw [hfold]; exact Nat.le_trans hle (Nat.min_le_right a e)
      · rw [hfold]; exact hall e he'

theorem suggestedEpochLoop_min (epochs : List Nat) (hne : epochs ≠ [])
    (hpos : ∀ e ∈ epochs, 0 < e) :
    suggestedEpochLoop epochs ∈ epochs ∧
    (∀ e ∈ epochs, suggestedEpochLoop epochs ≤ e) := by
  match epochs, hne with
  | v :: rest, _ =>
    have hv : 0 < v := hpos v (List.mem_cons_self v rest)
    have hrest : ∀ e ∈ rest, 0 < e := fun e he => hpos e (List.mem_cons_of_mem v he)
    have hfirst : suggestedEpochStep 0 v = v := by simp [suggestedEpochStep]
    have hfold : suggestedEpochLoop (v :: rest) = rest.foldl suggestedEpochStep v := by
      simp [suggestedEpochLoop, List.foldl, hfirst]
    obtain ⟨hmem, hle, hall⟩ := suggestedEpochLoop_go rest v hv hrest
    constructor
    · rcases hmem with h | h
      · rw [hfold, h]; exact List.mem_cons_self v rest
      · rw [hfold]; exact List.mem_cons_of_mem v h
    · intro e he
      rcases List.mem_cons.mp he with rfl | he'
      · rw [hfold]; exact hle
      · rw [hfold]; exact hall e he'

theorem ulpExp_eq_zero {n : Nat} (h : n < 2 ^ 53) : ulpExp n = 0 := by
  have hf : ((List.range 11).filter (fun j => 2 ^ (53 + j) ≤ n)) = [] := by
    rw [List.filter_eq_nil_iff]
    intro j _
    simp only [decide_eq_true_eq]
    intro hle
    have h2 : (2 : Nat) ^ 53 ≤ 2 ^ (53 + j) :=
      Nat.pow_le_pow_right (by norm_num) (Nat.le_add_right 53 j)
    omega
  simp [ulpExp, hf]

theorem jsNumber_exact {n : Nat} (h : n ≤ 2 ^ 53) : jsNumber n = n := by
  rcases Nat.lt_or_ge n (2 ^ 53) with hlt | hge
  · have hu : ulpExp n = 0 := ulpExp_eq_zero hlt
    simp [jsNumber, hu, Nat.mod_one]
  · have hn : n = 2 ^ 53 := Nat.le_antisymm h hge
    subst hn
    decide

theorem map_jsNumber_id {epochs : List Nat} (h : ∀ e ∈ epochs, e ≤ 2 ^ 53) :
    epochs.map jsNumber = epochs := by
  induction epochs with
  | nil => rfl
  | cons x xs ih =>
    have hx := h x (List.mem_cons_self x xs)
    have hxs : ∀ e ∈ xs, e ≤ 2 ^ 53 := fun e he => h e (List.mem_cons_of_mem x he)
    simp [List.map_cons, jsNumber_exact hx, ih hxs]

/-- C1 counterexample: the accumulation loop in `main` treats 0 as the
unset sentinel, so with per-chain values `[0, 5]` (chain with
`lastCommittedEpoch = 0` iterated first) it returns 5, which is not the
minimum of the values — the member 0 is strictly below the result. -/
theorem c1_suggested_epoch_zero_counterexample :
    suggestedEpochLoop [0, 5] = 5 ∧ (0 : Nat) ∈ [0, 5] ∧
    ¬ suggestedEpochLoop [0, 5] ≤ 0 := by decide

/-- C1 (amended): for every non-empty list of per-chain last-committed
epoch values in which every value is positive, the suggested epoch
computed by the accumulation loop in `main` is a member of the list and
a lower bound of it, i.e. it equals the minimum over all chains. -/
theorem c1_suggested_epoch_min (epochs : List Nat) (hne : epochs ≠ [])
    (hpos : ∀ e ∈ epochs, 0 < e) :
    suggestedEpochLoop epochs ∈ epochs ∧
    (∀ e ∈ epochs, suggestedEpochLoop epochs ≤ e) :=
  suggestedEpochLoop_min epochs hne hpos

theorem c1_suggested_epoch_min_witness :
    ([7, 3, 9] : List Nat) ≠ [] ∧ (∀ e ∈ [(7 : Nat), 3, 9], 0 < e) ∧
    (suggestedEpochLoop [7, 3, 9] ∈ [(7 : Nat), 3, 9] ∧
      ∀ e ∈ [(7 : Nat), 3, 9], suggestedEpochLoop [7, 3, 9] ≤ e) :=
  ⟨by decide, by decide, c1_suggested_epoch_min [7, 3, 9] (by decide) (by decide)⟩

/-- C8: each client streaming method (`signMessageAndWait`,
`listenSignatures`, `listenProofs`, `listenValidatorSet`) yields exactly
the responses pushed by the server on the stream, unchanged and in the
same order — the generator loop is the identity on the response
sequence, with no buffering, reordering, filtering, duplication or
drop. -/
theorem c8_stream_pass_through {α : Type} (responses : List α) :
    signMessageAndWaitYield responses = responses ∧
    listenSignaturesYield responses = responses ∧
    listenProofsYield responses = responses ∧
    listenValidatorSetYield responses = responses :=
  ⟨streamForYield_eq responses, streamForYield_eq responses,
    streamForYield_eq responses, streamForYield_eq responses⟩

/-- C9 counterexample: the `Number(...)` conversion in `main` rounds an
unsigned 64-bit epoch to the nearest double, so the value `2 ^ 53 + 1`
is not preserved: it becomes `2 ^ 53`, and the suggested-epoch
computation over the single chain `[2 ^ 53 + 1]` does not return the
chain's exact `lastCommittedEpoch`. -/
theorem c9_number_precision_counterexample :
    jsNumber (2 ^ 53 + 1) = 2 ^ 53 ∧ (2 : Nat) ^ 53 ≠ 2 ^ 53 + 1 ∧
    mainSuggestedEpoch [2 ^ 53 + 1] ≠ 2 ^ 53 + 1 := by decide

/-- C9 (amended): for epochs not exceeding `2 ^ 53` the `Number(...)`
conversion applied by `main` is exact, so the suggested-epoch
computation sees each chain's `lastCommittedEpoch` without loss of
precision; above `2 ^ 53` the conversion can lose precision. -/
theorem c9_number_exact_below_pow53 (epochs : List Nat)
    (h : ∀ e ∈ epochs, e ≤ 2 ^ 53) :
    (∀ e ∈ epochs, jsNumber e = e) ∧
    mainSuggestedEpoch epochs = suggestedEpochLoop epochs := by
  refine ⟨fun e he => jsNumber_exact (h e he), ?_⟩
  unfold mainSuggestedEpoch
  rw [map_jsNumber_id h]

theorem c9_number_exact_below_pow53_witness :
    (∀ e ∈ [(3 : Nat), 5], e ≤ 2 ^ 53) ∧
    ((∀ e ∈ [(3 : Nat), 5], jsNumber e = e) ∧
      mainSuggestedEpoch [3, 5] = suggestedEpochLoop [3, 5]) :=
  ⟨by decide, c9_number_exact_below_pow53 [3, 5] (by decide)⟩

/-- C10: for every keyTag, message and optional requiredEpoch, the
`signMessage` method of the older `RelayClient` wrapper
(`src/unnamed/part_000`) and the `signMessage` method of the newer
`RelayClient` wrapper (`src/examples/basic-usage.ts`) construct
identical `SignMessageRequest` messages. -/
theorem c10_sign_message_equiv (keyTag : Nat) (message : List Nat)
    (requiredEpoch : Option Nat) :
    signMessageRequestPart000 keyTag message requiredEpoch
      = signMessageRequestBasicUsage keyTag message requiredEpoch := rfl

/-- Modelled from the spec: the per-request lifecycle states of the
AggregationEngine state machine, `PENDING -> ACCUMULATING -> COMPLETED |
FAILED | TIMEOUT` (spec section 4.4).  The engine itself is server-side
code absent from this repository; the client only ships the matching
`SigningStatus` enum consumed in `src/unnamed/part_000`. -/
inductive SigningStatus
  | PENDING
  | ACCUMULATING
  | COMPLETED
  | FAILED
  | TIMEOUT
deriving DecidableEq, Repr

/-- Terminal states of the request state machine (spec section 4.4):
no further transitions once terminal. -/
def SigningStatus.isTerminal : SigningStatus → Bool
  | SigningStatus.COMPLETED => true
  | SigningStatus.FAILED => true
  | SigningStatus.TIMEOUT => true
  | _ => false

/-- Modelled from the spec: events delivered by the EventNotifier for one
request (spec sections 4.4, 4.5) — a signature-added event per recorded
signature and exactly one terminal-state notification. -/
inductive EngineEvent
  | SignatureAdded (signer : Nat)
  | CompletedNotice
  | FailedNotice
  | TimeoutNotice
deriving DecidableEq, Repr

/-- Modelled from the spec: the mutable per-request state held by the
SignatureRequestStore / AggregationEngine (spec sections 4.3, 4.4):
the distinct validator keys that signed (in arrival order), the
lifecycle status, and the emitted events. -/
structure RequestState where
  signers : List Nat
  status : SigningStatus
  events : List EngineEvent
deriving DecidableEq, Repr

/-- Initial state of a freshly created request: zero signatures,
`PENDING`, no events (spec section 4.4). -/
def initRequestState : RequestState :=
  ⟨[], SigningStatus.PENDING, []⟩

/-- Modelled from the spec: cumulative voting power of the distinct
validators who signed, against the validator set resolved for the
request's epoch; validator `v` holds voting power `powers.getD v 0`
(spec section 4.4). -/
def cumulativePower (powers : List Nat) (signers : List Nat) : Nat :=
  (signers.map (fun v => powers.getD v 0)).sum

/-- Outcome reported by `addSignature` for one submission. -/
inductive AddOutcome
  | Added
  | DuplicateSigner
deriving DecidableEq, Repr

/-- Modelled from the spec: `addSignature` of the SignatureRequestStore
driving the AggregationEngine (spec sections 4.3, 4.4).  A validator key
that already signed is a benign no-op reported as `DuplicateSigner`;
otherwise the signature is recorded (also after completion, for audit,
without re-triggering aggregation), and while the request is not
terminal the engine recomputes cumulative voting power and transitions
to `COMPLETED` the instant it reaches the quorum threshold, emitting the
completion notification. -/
def addSignature (powers : List Nat) (threshold : Nat)
    (st : RequestState) (v : Nat) : RequestState × AddOutcome :=
  if v ∈ st.signers then (st, AddOutcome.DuplicateSigner)
  else
    let signers := st.signers ++ [v]
    if st.status.isTerminal then
      (⟨signers, st.status, st.events ++ [EngineEvent.SignatureAdded v]⟩,
        AddOutcome.Added)
    else if threshold ≤ cumulativePower powers signers then
      (⟨signers, SigningStatus.COMPLETED,
          st.events ++ [EngineEvent.SignatureAdded v, EngineEvent.CompletedNotice]⟩,
        AddOutcome.Added)
    else
      (⟨signers, SigningStatus.ACCUMULATING,
          st.events ++ [EngineEvent.SignatureAdded v]⟩,
        AddOutcome.Added)

/-- Modelled from the spec: transition to `FAILED` on an unrecoverable
validator-reported error, terminal states absorbing (spec section 4.4). -/
def markFailed (st : RequestState) : RequestState :=
  if st.status.isTerminal then st
  else ⟨st.signers, SigningStatus.FAILED, st.events ++ [EngineEvent.FailedNotice]⟩

/-- Modelled from the spec: transition to `TIMEOUT` when quorum is not
reached within the waiting window, terminal states absorbing (spec
section 4.4). -/
def markTimeout (st : RequestState) : RequestState :=
  if st.status.isTerminal then st
  else ⟨st.signers, SigningStatus.TIMEOUT, st.events ++ [EngineEvent.TimeoutNotice]⟩

/-- Operations that can hit one request over its lifetime. -/
inductive EngineOp
  | addSig (v : Nat)
  | reportFailure
  | reportTimeout
deriving DecidableEq, Repr

/-- Apply one engine operation to a request state. -/
def applyOp (powers : List Nat) (threshold : Nat) (st : RequestState) :
    EngineOp → RequestState
  | EngineOp.addSig v => (addSignature powers threshold st v).1
  | EngineOp.reportFailure => markFailed st
  | EngineOp.reportTimeout => markTimeout st

/-- Run a sequence of engine operations from a state. -/
def runOps (powers : List Nat) (threshold : Nat) (st : RequestState)
    (ops : List EngineOp) : RequestState :=
  ops.foldl (applyOp powers threshold) st

/-- Run a sequence of signature additions from a state. -/
def runAddsFrom (powers : List Nat) (threshold : Nat) (st : RequestState)
    (adds : List Nat) : RequestState :=
  adds.foldl (fun s v => (addSignature powers threshold s v).1) st

/-- Run a sequence of signature additions on a fresh request. -/
def runAdds (powers : List Nat) (threshold : Nat) (adds : List Nat) : RequestState :=
  runAddsFrom powers threshold initRequestState adds

/-- First occurrences of each value in submission order: the distinct
signers a sequence of additions leaves recorded. -/
def firstOccurrences (adds : List Nat) : List Nat :=
  adds.foldl (fun acc v => if v ∈ acc then acc else acc ++ [v]) []

theorem cumulativePower_append (powers l : List Nat) (v : Nat) :
    cumulativePower powers (l ++ [v])
      = cumulativePower powers l + powers.getD v 0 := by
  simp [cumulativePower]

theorem addSignature_dup (powers : List Nat) (threshold : Nat)
    (st : RequestState) {v : Nat} (h : v ∈ st.signers) :
    addSignature powers threshold st v = (st, AddOutcome.DuplicateSigner) := by
  simp [addSignature, h]

theorem mem_signers_addSignature (powers : List Nat) (threshold : Nat)
    (st : RequestState) (v : Nat) :
    v ∈ (addSignature powers threshold st v).1.signers := by
  by_cases hc : v ∈ st.signers
  · simp [addSignature, hc]
  · by_cases ht : st.status.isTerminal <;>
      by_cases hq : threshold ≤ cumulativePower powers (st.signers ++ [v]) <;>
      simp [addSignature, hc, ht, hq]

theorem addSignature_signers (powers : List Nat) (threshold : Nat)
    (st : RequestState) (v : Nat) :
    (addSignature powers threshold st v).1.signers
      = if v ∈ st.signers then st.signers else st.signers ++ [v] := by
  by_cases hc : v ∈ st.signers
  · simp [addSignature, hc]
  · by_cases ht : st.status.isTerminal <;>
      by_cases hq : threshold ≤ cumulativePower powers (st.signers ++ [v]) <;>
      simp [addSignature, hc, ht, hq]

/-- Invariant of the accumulation phase: distinct signers, no
failure/timeout states reached by additions alone, `COMPLETED` exactly
when the recorded distinct-signer power has reached the quorum
threshold, and the completion notification emitted exactly when
completed. -/
def AccumInv (powers : List Nat) (threshold : Nat) (st : RequestState) : Prop :=
  st.signers.Nodup ∧
  (st.status = SigningStatus.PENDING ∨ st.status = SigningStatus.ACCUMULATING ∨
    st.status = SigningStatus.COMPLETED) ∧
  (st.status = SigningStatus.COMPLETED ↔
    st.signers ≠ [] ∧ threshold ≤ cumulativePower powers st.signers) ∧
  st.events.count EngineEvent.CompletedNotice
    = (if st.status = SigningStatus.COMPLETED then 1 else 0)

theorem AccumInv_init (powers : List Nat) (threshold : Nat) :
    AccumInv powers threshold initRequestState := by
  refine ⟨List.nodup_nil, Or.inl rfl, ?_, rfl⟩
  constructor
  · intro h; exact absurd h (by simp [initRequestState])
  · rintro ⟨hne, _⟩; exact absurd rfl hne

theorem AccumInv_addSignature (powers : List Nat) (threshold : Nat)
    (st : RequestState) (v : Nat) (h : AccumInv powers threshold st) :
    AccumInv powers threshold (addSignature powers threshold st v).1 := by
  obtain ⟨hnd, hstat, hiff, hcnt⟩ := h
  by_cases hc : v ∈ st.signers
  · simpa [addSignature, hc] using ⟨hnd, hstat, hiff, hcnt⟩
  · have hnd' : (st.signers ++ [v]).Nodup := by
      simp [List.nodup_append, hnd, hc]
    have hpow : cumulativePower powers st.signers
        ≤ cumulativePower powers (st.signers ++ [v]) := by
      rw [cumulativePower_append]; exact Nat.le_add_right _ _
    by_cases ht : st.status.isTerminal
    · have hcomp : st.status = SigningStatus.COMPLETED := by
        rcases hstat with h1 | h1 | h1 <;> rw [h1] at ht ⊢ <;> first
          | rfl
          | exact absurd ht (by simp [SigningStatus.isTerminal])
      refine ⟨?_, ?_, ?_, ?_⟩ <;> simp only [addSignature, hc, ht, if_false, if_true]
      · exact hnd'
      · exact Or.inr (Or.inr hcomp)
      · constructor
        · intro _
          exact ⟨by simp, Nat.le_trans (hiff.mp hcomp).2 hpow⟩
        · intro _; exact hcomp
      · simp [List.count_append, hcnt, hcomp]
    · by_cases hq : threshold ≤ cumulativePower powers (st.signers ++ [v])
      · have hncomp : st.status ≠ SigningStatus.COMPLETED := by
          intro hk; rw [hk] at ht; exact ht (by simp [SigningStatus.isTerminal])
        refine ⟨?_, ?_, ?_, ?_⟩ <;>
          simp only [addSignature, hc, ht, hq, if_false, if_true]
        · exact hnd'
        · exact Or.inr (Or.inr rfl)
        · exact ⟨fun _ => ⟨by simp, hq⟩, fun _ => rfl⟩
        · simp [List.count_append, List.count_cons, hcnt, hncomp]
      · have hncomp : st.status ≠ SigningStatus.COMPLETED := by
          intro hk; rw [hk] at ht; exact ht (by simp [SigningStatus.isTerminal])
        refine ⟨?_, ?_, ?_, ?_⟩ <;>
          simp only [addSignature, hc, ht, hq, if_false, if_true]
        · exact hnd'
        · exact Or.inr (Or.inl rfl)
        · constructor
          · intro hk; exact absurd hk (by simp)
          · rintro ⟨_, hk⟩; exact absurd hk hq
        · simp [List.count_append, List.count_cons, hcnt, hncomp]

theorem AccumInv_runAddsFrom (powers : List Nat) (threshold : Nat)
    (adds : List Nat) :
    ∀ st : RequestState, AccumInv powers threshold st →
      AccumInv powers threshold (runAddsFrom powers threshold st adds) := by
  induction adds with
  | nil => intro st h; exact h
  | cons v rest ih =>
    intro st h
    exact ih _ (AccumInv_addSignature powers threshold st v h)

theorem AccumInv_runAdds (powers : List Nat) (threshold : Nat) (adds : List Nat) :
    AccumInv powers threshold (runAdds powers threshold adds) :=
  AccumInv_runAddsFrom powers threshold adds initRequestState
    (AccumInv_init powers threshold)

theorem runAddsFrom_signers (powers : List Nat) (threshold : Nat)
    (adds : List Nat) :
    ∀ st : RequestState, (runAddsFrom powers threshold st adds).signers
      = adds.foldl (fun acc v => if v ∈ acc then acc else acc ++ [v]) st.signers := by
  induction adds with
  | nil => intro st; rfl
  | cons v rest ih =>
    intro st
    have hstep := addSignature_signers powers threshold st v
    calc (runAddsFrom powers threshold st (v :: rest)).signers
        = (runAddsFrom powers threshold (addSignature powers threshold st v).1 rest).signers := rfl
      _ = rest.foldl (fun acc w => if w ∈ acc then acc else acc ++ [w])
            (addSignature powers threshold st v).1.signers := ih _
      _ = rest.foldl (fun acc w => if w ∈ acc then acc else acc ++ [w])
            (if v ∈ st.signers then st.signers else st.signers ++ [v]) := by rw [hstep]

/-- C4: submitting a signature from the same validator key a second time
is idempotent: the resulting store state (signers, status, events) is
exactly the state after the first submission, and the duplicate is
reported as `DuplicateSigner` — a no-op, not an error. -/
theorem c4_duplicate_signature_idempotent (powers : List Nat) (threshold : Nat)
    (st : RequestState) (v : Nat) :
    addSignature powers threshold (addSignature powers threshold st v).1 v
      = ((addSignature powers threshold st v).1, AddOutcome.DuplicateSigner) :=
  addSignature_dup powers threshold (addSignature powers threshold st v).1
    (mem_signers_addSignature powers threshold st v)

/-- C2: along every sequence of signature additions on a fresh request,
the state is `COMPLETED` after a prefix exactly when the distinct-signer
cumulative voting power of that prefix has reached the quorum threshold
(so the transition happens exactly at the first crossing, never below
the threshold), at most one completion notification is ever emitted, the
recorded signers are the distinct submitters in arrival order, and in
the concrete scenario with voting powers `[40, 30, 30]` and threshold 60,
validators 0 and 1 complete the request at the second signature while
validator 2 alone leaves it `ACCUMULATING`. -/
theorem c2_completed_exactly_at_quorum (powers : List Nat) (threshold : Nat)
    (adds : List Nat) :
    (∀ k : Nat,
      ((runAdds powers threshold (adds.take k)).status = SigningStatus.COMPLETED ↔
        (runAdds powers threshold (adds.take k)).signers ≠ [] ∧
        threshold ≤ cumulativePower powers
          (runAdds powers threshold (adds.take k)).signers)) ∧
    (runAdds powers threshold adds).events.count EngineEvent.CompletedNotice ≤ 1 ∧
    (runAdds powers threshold adds).signers = firstOccurrences adds ∧
    (runAdds [40, 30, 30] 60 [0, 1]).status = SigningStatus.COMPLETED ∧
    (runAdds [40, 30, 30] 60 [0]).status = SigningStatus.ACCUMULATING ∧
    (runAdds [40, 30, 30] 60 [2]).status = SigningStatus.ACCUMULATING := by
  refine ⟨?_, ?_, ?_, by decide, by decide, by decide⟩
  · intro k
    exact (AccumInv_runAdds powers threshold (adds.take k)).2.2.1
  · have h := (AccumInv_runAdds powers threshold adds).2.2.2
    rw [h]
    by_cases hc : (runAdds powers threshold adds).status = SigningStatus.COMPLETED <;>
      simp [hc]
  · exact runAddsFrom_signers powers threshold adds initRequestState

/-- Count of terminal-state notifications among the emitted events. -/
def terminalNoticeCount (evs : List EngineEvent) : Nat :=
  evs.count EngineEvent.CompletedNotice + evs.count EngineEvent.FailedNotice
    + evs.count EngineEvent.TimeoutNotice

/-- Invariant tying the number of delivered terminal notifications to
whether the request has reached a terminal state. -/
def TerminalInv (st : RequestState) : Prop :=
  terminalNoticeCount st.events = (if st.status.isTerminal then 1 else 0)

theorem terminalNoticeCount_append (evs l : List EngineEvent) :
    terminalNoticeCount (evs ++ l)
      = terminalNoticeCount evs + terminalNoticeCount l := by
  simp [terminalNoticeCount, List.count_append]
  omega

theorem terminalNoticeCount_sigAdded (v : Nat) :
    terminalNoticeCount [EngineEvent.SignatureAdded v] = 0 := by
  simp [terminalNoticeCount, List.count_cons, List.count_nil]

theorem applyOp_terminal_status (powers : List Nat) (threshold : Nat)
    (st : RequestState) (op : EngineOp) (h : st.status.isTerminal = true) :
    (applyOp powers threshold st op).status = st.status := by
  cases op with
  | addSig v =>
    by_cases hc : v ∈ st.signers
    · simp [applyOp, addSignature, hc]
    · simp [applyOp, addSignature, hc, h]
  | reportFailure => simp [applyOp, markFailed, h]
  | reportTimeout => simp [applyOp, markTimeout, h]

theorem runOps_terminal_status (powers : List Nat) (threshold : Nat)
    (more : List EngineOp) :
    ∀ st : RequestState, st.status.isTerminal = true →
      (runOps powers threshold st more).status = st.status := by
  induction more with
  | nil => intro st _; rfl
  | cons op rest ih =>
    intro st h
    have h1 := applyOp_terminal_status powers threshold st op h
    have h2 : (applyOp powers threshold st op).status.isTerminal = true := by
      rw [h1]; exact h
    calc (runOps powers threshold st (op :: rest)).status
        = (runOps powers threshold (applyOp powers threshold st op) rest).status := rfl
      _ = (applyOp powers threshold st op).status := ih _ h2
      _ = st.status := h1

theorem TerminalInv_applyOp (powers : List Nat) (threshold : Nat)
    (st : RequestState) (op : EngineOp) (h : TerminalInv st) :
    TerminalInv (applyOp powers threshold st op) := by
  cases op with
  | addSig v =>
    by_cases hc : v ∈ st.signers
    · simpa [applyOp, addSignature, hc] using h
    · by_cases ht : st.status.isTerminal
      · have hstep : applyOp powers threshold st (EngineOp.addSig v)
            = ⟨st.signers ++ [v], st.status,
                st.events ++ [EngineEvent.SignatureAdded v]⟩ := by
          simp [applyOp, addSignature, hc, ht]
        unfold TerminalInv at h ⊢
        rw [hstep]
        simpa [terminalNoticeCount_append, terminalNoticeCount_sigAdded] using h
      · have hz : terminalNoticeCount st.events = 0 := by
          simpa [TerminalInv, ht] using h
        by_cases hq : threshold ≤ cumulativePower powers (st.signers ++ [v])
        · have hstep : applyOp powers threshold st (EngineOp.addSig v)
              = ⟨st.signers ++ [v], SigningStatus.COMPLETED,
                  st.events ++ [EngineEvent.SignatureAdded v,
                    EngineEvent.CompletedNotice]⟩ := by
            simp [applyOp, addSignature, hc, ht, hq]
          have hone : terminalNoticeCount
              [EngineEvent.SignatureAdded v, EngineEvent.CompletedNotice] = 1 := by
            simp [terminalNoticeCount, List.count_cons, List.count_nil]
          unfold TerminalInv
          rw [hstep]
          simp [terminalNoticeCount_append, hz, hone, SigningStatus.isTerminal]
        · have hstep : applyOp powers threshold st (EngineOp.addSig v)
              = ⟨st.signers ++ [v], SigningStatus.ACCUMULATING,
                  st.events ++ [EngineEvent.SignatureAdded v]⟩ := by
            simp [applyOp, addSignature, hc, ht, hq]
          unfold TerminalInv
          rw [hstep]
          simp [terminalNoticeCount_append, hz, terminalNoticeCount_sigAdded,
            SigningStatus.isTerminal]
  | reportFailure =>
    by_cases ht : st.status.isTerminal
    · simpa [applyOp, markFailed, ht] using h
    · have hz : terminalNoticeCount st.events = 0 := by
        simpa [TerminalInv, ht] using h
      have hstep : applyOp powers threshold st EngineOp.reportFailure
          = ⟨st.signers, SigningStatus.FAILED,
              st.events ++ [EngineEvent.FailedNotice]⟩ := by
        simp [applyOp, markFailed, ht]
      have hone : terminalNoticeCount [EngineEvent.FailedNotice] = 1 := by
        simp [terminalNoticeCount, List.count_cons, List.count_nil]
      unfold TerminalInv
      rw [hstep]
      simp [terminalNoticeCount_append, hz, hone, SigningStatus.isTerminal]
  | reportTimeout =>
    by_cases ht : st.status.isTerminal
    · simpa [applyOp, markTimeout, ht] using h
    · have hz : terminalNoticeCount st.events = 0 := by
        simpa [TerminalInv, ht] using h
      have hstep : applyOp powers threshold st EngineOp.reportTimeout
          = ⟨st.signers, SigningStatus.TIMEOUT,
              st.events ++ [EngineEvent.TimeoutNotice]⟩ := by
        simp [applyOp, markTimeout, ht]
      have hone : terminalNoticeCount [EngineEvent.TimeoutNotice] = 1 := by
        simp [terminalNoticeCount, List.count_cons, List.count_nil]
      unfold TerminalInv
      rw [hstep]
      simp [terminalNoticeCount_append, hz, hone, SigningStatus.isTerminal]

theorem TerminalInv_runOps (powers : List Nat) (threshold : Nat)
    (ops : List EngineOp) :
    ∀ st : RequestState, TerminalInv st →
      TerminalInv (runOps powers threshold st ops) := by
  induction ops with
  | nil => intro st h; exact h
  | cons op rest ih =>
    intro st h
    exact ih _ (TerminalInv_applyOp powers threshold st op h)

/-- C7: once a request reaches a terminal state (`COMPLETED`, `FAILED`
or `TIMEOUT`), no further engine operation ever changes its status, and
over any history of operations from creation the number of delivered
terminal-state notifications is exactly one once terminal (and zero
before). -/
theorem c7_terminal_absorbing (powers : List Nat) (threshold : Nat)
    (ops more : List EngineOp) :
    ((runOps powers threshold initRequestState ops).status.isTerminal = true →
      (runOps powers threshold
          (runOps powers threshold initRequestState ops) more).status
        = (runOps powers threshold initRequestState ops).status) ∧
    terminalNoticeCount (runOps powers threshold initRequestState ops).events
      = (if (runOps powers threshold initRequestState ops).status.isTerminal
          then 1 else 0) :=
  ⟨fun h => runOps_terminal_status powers threshold more _ h,
    TerminalInv_runOps powers threshold ops initRequestState rfl⟩

theorem c7_terminal_absorbing_witness :
    (runOps [40] 40
        (runOps [40] 40 initRequestState [EngineOp.reportTimeout])
        [EngineOp.addSig 0]).status
      = (runOps [40] 40 initRequestState [EngineOp.reportTimeout]).status ∧
    terminalNoticeCount
      (runOps [40] 40 initRequestState [EngineOp.reportTimeout]).events = 1 := by
  have h := c7_terminal_absorbing [40] 40 [EngineOp.reportTimeout] [EngineOp.addSig 0]
  refine ⟨h.1 (by decide), ?_⟩
  have h2 := h.2
  rw [h2]
  decide

/-- Modelled from the spec: an individual signature accumulated for a
request, identified by the signing validator key and its payload (spec
section 3). -/
structure EngineSig where
  signer : Nat
  payload : Nat
deriving DecidableEq, Repr

/-- Modelled from the spec: the combined artifact produced on quorum
(spec section 3), holding the combined proof data. -/
structure AggregationProof where
  proof : List Nat
deriving DecidableEq, Repr

/-- Canonical numeric code of a signature, fixing a canonical order on
the accumulated set. -/
def sigCode (s : EngineSig) : Nat :=
  Nat.pair s.signer s.payload

/-- Modelled from the spec: the pluggable combine step of the
AggregationEngine (spec section 4.4) — "a pure, order-independent
function of the signature set".  The accumulated signatures are brought
into canonical order before being combined, so the produced proof
depends only on the set of signatures, not on arrival order. -/
def combineSignatures (sigs : List EngineSig) : AggregationProof :=
  ⟨(sigs.map sigCode).insertionSort (fun a b => a ≤ b)⟩

/-- C3: aggregation is order-independent — any two arrival orders of the
same signer set (permutations of the same signature list) are combined
into a bit-identical `AggregationProof`. -/
theorem c3_combine_order_independent (l1 l2 : List EngineSig)
    (h : l1.Perm l2) :
    combineSignatures l1 = combineSignatures l2 := by
  unfold combineSignatures
  congr 1
  exact List.eq_of_perm_of_sorted
    (((List.perm_insertionSort _ _).trans (h.map sigCode)).trans
      (List.perm_insertionSort _ _).symm)
    (List.sorted_insertionSort _ _)
    (List.sorted_insertionSort _ _)

theorem c3_combine_order_independent_witness :
    (([⟨1, 10⟩, ⟨2, 20⟩] : List EngineSig).Perm [⟨2, 20⟩, ⟨1, 10⟩]) ∧
    combineSignatures [⟨1, 10⟩, ⟨2, 20⟩] = combineSignatures [⟨2, 20⟩, ⟨1, 10⟩] :=
  ⟨List.Perm.swap (⟨2, 20⟩ : EngineSig) ⟨1, 10⟩ [],
    c3_combine_order_independent [⟨1, 10⟩, ⟨2, 20⟩] [⟨2, 20⟩, ⟨1, 10⟩]
      (List.Perm.swap (⟨2, 20⟩ : EngineSig) ⟨1, 10⟩ [])⟩

/-- Canonical injective encoding of a byte string, standing for the
collision-free canonical hash the spec assumes. -/
def encodeMessage : List Nat → Nat
  | [] => 0
  | b :: bs => Nat.pair b (encodeMessage bs) + 1

/-- Modelled from the spec: the deterministic request ID, "derived from
a canonical hash of (keyTag, message, resolvedEpoch)" (spec section 4.3);
the hash is modelled as a canonical injective pairing. -/
def requestIdOf (keyTag : Nat) (message : List Nat) (epoch : Nat) : Nat :=
  Nat.pair keyTag (Nat.pair (encodeMessage message) epoch)

/-- Modelled from the spec: a stored signing request (spec section 3):
content-derived ID, key tag, message bytes, resolved required epoch,
and whether it has reached completion. -/
structure StoredRequest where
  requestId : Nat
  keyTag : Nat
  message : List Nat
  requiredEpoch : Nat
  completed : Bool
deriving DecidableEq, Repr

/-- Modelled from the spec: the request table of the
SignatureRequestStore (spec section 4.3). -/
structure RequestStore where
  requests : List StoredRequest
deriving DecidableEq, Repr

/-- Modelled from the spec: `create(keyTag, message, requiredEpoch?)` of
the SignatureRequestStore (spec section 4.3): the request ID is the
canonical hash of `(keyTag, message, resolvedEpoch)`; if an in-flight
(not yet completed) request with that ID already exists it is returned
unchanged instead of creating a duplicate, otherwise a fresh request is
appended to the store. -/
def createRequest (s : RequestStore) (keyTag : Nat) (message : List Nat)
    (epoch : Nat) : RequestStore × StoredRequest :=
  match s.requests.find?
      (fun r => r.requestId == requestIdOf keyTag message epoch && !r.completed) with
  | some r => (s, r)
  | none =>
    (⟨s.requests ++ [⟨requestIdOf keyTag message epoch, keyTag, message, epoch, false⟩]⟩,
      ⟨requestIdOf keyTag message epoch, keyTag, message, epoch, false⟩)

theorem encodeMessage_injective : ∀ {l1 l2 : List Nat},
    encodeMessage l1 = encodeMessage l2 → l1 = l2 := by
  intro l1
  induction l1 with
  | nil =>
    intro l2 h
    cases l2 with
    | nil => rfl
    | cons b bs => exact absurd h.symm (by simp [encodeMessage])
  | cons a as ih =>
    intro l2 h
    cases l2 with
    | nil => exact absurd h (by simp [encodeMessage])
    | cons b bs =>
      simp only [encodeMessage, Nat.add_right_cancel_iff] at h
      obtain ⟨h3, h4⟩ := Nat.pair_eq_pair.mp h
      rw [h3, ih h4]

theorem requestIdOf_injective {kt kt' : Nat} {m m' : List Nat} {e e' : Nat}
    (h : requestIdOf kt m e = requestIdOf kt' m' e') :
    kt = kt' ∧ m = m' ∧ e = e' := by
  unfold requestIdOf at h
  obtain ⟨h1, h2⟩ := Nat.pair_eq_pair.mp h
  obtain ⟨h3, h4⟩ := Nat.pair_eq_pair.mp h2
  exact ⟨h1, encodeMessage_injective h3, h4⟩

theorem find?_append_none {α : Type} (p : α → Bool) :
    ∀ (l1 l2 : List α), l1.find? p = none → (l1 ++ l2).find? p = l2.find? p := by
  intro l1
  induction l1 with
  | nil => intro l2 _; rfl
  | cons x xs ih =>
    intro l2 h
    by_cases hp : p x
    · rw [List.find?_cons_of_pos _ hp] at h; cases h
    · rw [List.cons_append, List.find?_cons_of_neg _ hp]
      rw [List.find?_cons_of_neg _ hp] at h
      exact ih l2 h

/-- C5: `create` is idempotent and content-addressed: creating a second
time with identical inputs returns the request produced by the first
call and leaves the store unchanged; the returned request's ID is the
canonical hash of `(keyTag, message, resolvedEpoch)`; and the canonical
hash is collision-free on the inputs, so distinct inputs never map to
the same in-flight request. -/
theorem c5_create_idempotent (s : RequestStore) (kt kt' : Nat)
    (m m' : List Nat) (e e' : Nat) :
    (createRequest (createRequest s kt m e).1 kt m e
      = ((createRequest s kt m e).1, (createRequest s kt m e).2)) ∧
    (createRequest s kt m e).2.requestId = requestIdOf kt m e ∧
    (requestIdOf kt m e = requestIdOf kt' m' e' → kt = kt' ∧ m = m' ∧ e = e') := by
  refine ⟨?_, ?_, fun hh => requestIdOf_injective hh⟩
  · unfold createRequest
    cases hfind : s.requests.find?
        (fun r => r.requestId == requestIdOf kt m e && !r.completed) with
    | some r => simp [hfind]
    | none =>
      have hfind2 : ((s.requests
            ++ [⟨requestIdOf kt m e, kt, m, e, false⟩]) : List StoredRequest).find?
          (fun r => r.requestId == requestIdOf kt m e && !r.completed)
          = some ⟨requestIdOf kt m e, kt, m, e, false⟩ := by
        rw [find?_append_none _ _ _ hfind]
        simp [List.find?]
      simp [hfind, hfind2]
  · unfold createRequest
    cases hfind : s.requests.find?
        (fun r => r.requestId == requestIdOf kt m e && !r.completed) with
    | some r =>
      have hp := List.find?_some hfind
      simp only [Bool.and_eq_true, beq_iff_eq] at hp
      simp [hp.1]
    | none => simp

theorem c5_create_idempotent_witness :
    (createRequest (createRequest ⟨[]⟩ 1 [2] 3).1 1 [2] 3
      = ((createRequest ⟨[]⟩ 1 [2] 3).1, (createRequest ⟨[]⟩ 1 [2] 3).2)) ∧
    (createRequest ⟨[]⟩ 1 [2] 3).2.requestId = requestIdOf 1 [2] 3 ∧
    ((1 : Nat) = 1 ∧ ([2] : List Nat) = [2] ∧ (3 : Nat) = 3) :=
  ⟨(c5_create_idempotent ⟨[]⟩ 1 1 [2] [2] 3 3).1,
    (c5_create_idempotent ⟨[]⟩ 1 1 [2] [2] 3 3).2.1,
    (c5_create_idempotent ⟨[]⟩ 1 1 [2] [2] 3 3).2.2 rfl⟩

/-- Look up a chain's stored watermark in the EpochClock's per-chain
association list. -/
def getWatermark : List (Nat × Nat) → Nat → Option Nat
  | [], _ => none
  | (c, e) :: rest, chain => if c = chain then some e else getWatermark rest chain

/-- Store (insert or overwrite) a chain's watermark. -/
def setWatermark : List (Nat × Nat) → Nat → Nat → List (Nat × Nat)
  | [], chain, e => [(chain, e)]
  | (c, w) :: rest, chain, e =>
    if c = chain then (c, e) :: rest else (c, w) :: setWatermark rest chain e

/-- Outcome reported by `advance` for one update. -/
inductive AdvanceOutcome
  | Advanced
  | StaleUpdate
deriving DecidableEq, Repr

/-- Modelled from the spec: `advance(chainId, committedEpoch)` of the
EpochClock (spec section 4.1): an out-of-order update (committedEpoch
below the stored watermark) is dropped, not applied, and reported as
`StaleUpdate`; otherwise the chain's watermark is updated. -/
def advance (w : List (Nat × Nat)) (chain committed : Nat) :
    List (Nat × Nat) × AdvanceOutcome :=
  match getWatermark w chain with
  | none => (setWatermark w chain committed, AdvanceOutcome.Advanced)
  | some stored =>
    if committed < stored then (w, AdvanceOutcome.StaleUpdate)
    else (setWatermark w chain committed, AdvanceOutcome.Advanced)

/-- Run a sequence of `advance` calls, each a (chainId, committedEpoch)
pair. -/
def runAdvances (w : List (Nat × Nat)) (calls : List (Nat × Nat)) :
    List (Nat × Nat) :=
  calls.foldl (fun acc ce => (advance acc ce.1 ce.2).1) w

theorem getWatermark_setWatermark_self :
    ∀ (l : List (Nat × Nat)) (chain e : Nat),
      getWatermark (setWatermark l chain e) chain = some e := by
  intro l
  induction l with
  | nil => intro chain e; simp [setWatermark, getWatermark]
  | cons p rest ih =>
    intro chain e
    obtain ⟨c, v⟩ := p
    by_cases hc : c = chain
    · simp [setWatermark, getWatermark, hc]
    · simp [setWatermark, getWatermark, hc, ih]

theorem getWatermark_setWatermark_other :
    ∀ (l : List (Nat × Nat)) (chain e c : Nat), chain ≠ c →
      getWatermark (setWatermark l chain e) c = getWatermark l c := by
  intro l
  induction l with
  | nil => intro chain e c hne; simp [setWatermark, getWatermark, hne]
  | cons p rest ih =>
    intro chain e c hne
    obtain ⟨c0, v⟩ := p
    by_cases hc : c0 = chain
    · subst hc
      simp [setWatermark, getWatermark, hne]
    · simp only [setWatermark, if_neg hc, getWatermark]
      by_cases hc2 : c0 = c
      · simp [hc2]
      · simp [hc2, ih chain e c hne]

theorem advance_mono (w : List (Nat × Nat)) (chain committed c v : Nat)
    (h : getWatermark w c = some v) :
    ∃ v', getWatermark (advance w chain committed).1 c = some v' ∧ v ≤ v' := by
  by_cases hc : c = chain
  · subst hc
    unfold advance
    rw [h]
    by_cases hlt : committed < v
    · simp only [if_pos hlt]
      exact ⟨v, h, Nat.le_refl v⟩
    · simp only [if_neg hlt]
      exact ⟨committed, getWatermark_setWatermark_self w c committed,
        Nat.le_of_not_lt hlt⟩
  · have hne : chain ≠ c := fun hh => hc hh.symm
    unfold advance
    cases hg : getWatermark w chain with
    | none =>
      exact ⟨v, by rw [getWatermark_setWatermark_other w chain committed c hne]; exact h,
        Nat.le_refl v⟩
    | some stored =>
      by_cases hlt : committed < stored
      · simp only [if_pos hlt]
        exact ⟨v, h, Nat.le_refl v⟩
      · simp only [if_neg hlt]
        exact ⟨v, by rw [getWatermark_setWatermark_other w chain committed c hne]; exact h,
          Nat.le_refl v⟩

theorem runAdvances_mono (calls : List (Nat × Nat)) :
    ∀ (w : List (Nat × Nat)) (c v : Nat), getWatermark w c = some v →
      ∃ v', getWatermark (runAdvances w calls) c = some v' ∧ v ≤ v' := by
  induction calls with
  | nil => intro w c v h; exact ⟨v, h, Nat.le_refl v⟩
  | cons ce rest ih =>
    intro w c v h
    obtain ⟨v1, h1, hle1⟩ := advance_mono w ce.1 ce.2 c v h
    obtain ⟨v2, h2, hle2⟩ := ih _ c v1 h1
    exact ⟨v2, h2, Nat.le_trans hle1 hle2⟩

/-- C6: for every chain and stored watermark, `advance` with a
committedEpoch below the stored value leaves the whole store unchanged
and reports `StaleUpdate`; `advance` with a committedEpoch at or above
the stored value reports success and updates the chain's watermark to
the new value; and across every sequence of `advance` calls each
chain's stored watermark is monotonically non-decreasing. -/
theorem c6_advance_monotone (w : List (Nat × Nat))
    (chain committed stored : Nat) (calls : List (Nat × Nat))
    (h : getWatermark w chain = some stored) :
    (committed < stored →
      advance w chain committed = (w, AdvanceOutcome.StaleUpdate)) ∧
    (stored ≤ committed →
      (advance w chain committed).2 = AdvanceOutcome.Advanced ∧
      getWatermark (advance w chain committed).1 chain = some committed) ∧
    (∀ c v, getWatermark w c = some v →
      ∃ v', getWatermark (runAdvances w calls) c = some v' ∧ v ≤ v') := by
  refine ⟨?_, ?_, fun c v hv => runAdvances_mono calls w c v hv⟩
  · intro hlt
    unfold advance
    rw [h]
    simp only [if_pos hlt]
  · intro hge
    have hlt : ¬ committed < stored := Nat.not_lt.mpr hge
    constructor
    · unfold advance
      rw [h]
      simp [if_neg hlt]
    · unfold advance
      rw [h]
      simp only [if_neg hlt]
      exact getWatermark_setWatermark_self w chain committed

theorem c6_advance_monotone_witness :
    getWatermark [(1, 5)] 1 = some 5 ∧
    advance [(1, 5)] 1 3 = ([(1, 5)], AdvanceOutcome.StaleUpdate) ∧
    ((advance [(1, 5)] 1 7).2 = AdvanceOutcome.Advanced ∧
      getWatermark (advance [(1, 5)] 1 7).1 1 = some 7) ∧
    (∃ v', getWatermark (runAdvances [(1, 5)] [(1, 9), (1, 2)]) 1 = some v' ∧ 5 ≤ v') := by
  have h3 := c6_advance_monotone [(1, 5)] 1 3 5 [(1, 9), (1, 2)] (by decide)
  have h7 := c6_advance_monotone [(1, 5)] 1 7 5 [] (by decide)
  exact ⟨by decide, h3.1 (by decide), h7.2.1 (by decide), h3.2.2 1 5 (by decide)⟩
